import Mathlib

/-!
Verification of `dns_llm_server.py` (mashb1t/dns-txt-ollama-server).

Shallow embedding conventions:
* Python `str` values are modelled as `List Char` (Python string indexing and
  slicing operate on code points, exactly like `List Char` indexing).
* Python `float` clock readings and token counts are modelled as `ℚ`.
* The global dict `_BUCKETS` is modelled as an association list in which the
  leftmost binding for a key is the current one (assignment conses a new
  binding, lookup takes the first match).
* The per-question aggregation loop of `DNSHandler.handle` is modelled as a
  function of the trace of results that `q_out.get` delivers to the loop
  (fragments, the `None` end-of-stream sentinel, or a timeout / deadline
  expiry), in the order the loop observes them.
-/

/-- CONFIG constant `MAX_CHARS = 500` from the source. -/
def MAX_CHARS : Nat := 500

/-- CONFIG constant `DOMAIN = ".mashb1t.de"` from the source. -/
def DOMAIN : List Char := ".mashb1t.de".toList

/-- CONFIG constant `TOKENS_PER_MIN = 60` from the source (a count used in
float arithmetic, hence `ℚ` here). -/
def TOKENS_PER_MIN : ℚ := 60

/-! ## AnswerChunker: `split_txt` -/

/-- Fuel-indexed chunking: `chunksF fuel txt` computes the slice list
`[txt[i:i+255] for i in range(0, len(txt), 255)]` provided `txt.length ≤ fuel`
(the fuel only drives the recursion; each step removes at least one element,
so the middle branch is unreachable under that bound). -/
def chunksF : Nat → List Char → List (List Char)
  | _, [] => []
  | 0, l => [l]
  | f + 1, l => l.take 255 :: chunksF f (l.drop 255)

/-- `split_txt` from the source:
`return [txt[i:i + 255] for i in range(0, len(txt), 255)] or [""]`.
The comprehension yields the empty list exactly when `txt` is empty, in which
case the Python `or` supplies `[""]`. -/
def split_txt (txt : List Char) : List (List Char) :=
  match chunksF txt.length txt with
  | [] => [[]]
  | r => r

/-- Number of bytes of the UTF-8 encoding of one code point (the length
`len(c.encode())` Python would compute when the TXT RDATA is serialised). -/
def utf8Bytes (c : Char) : Nat :=
  if c.toNat < 0x80 then 1
  else if c.toNat < 0x800 then 2
  else if c.toNat < 0x10000 then 3
  else 4

/-- UTF-8 byte length of a string modelled as a code-point list. -/
def utf8Len (l : List Char) : Nat := (l.map utf8Bytes).sum

theorem chunksF_join : ∀ (f : Nat) (l : List Char), l.length ≤ f →
    (chunksF f l).flatten = l := by
  intro f
  induction f with
  | zero =>
    intro l hl
    have : l = [] := List.length_eq_zero.mp (Nat.le_zero.mp hl)
    subst this
    rfl
  | succ f ih =>
    intro l hl
    cases l with
    | nil => rfl
    | cons c cs =>
      have hdrop : ((c :: cs).drop 255).length ≤ f := by
        rw [List.length_drop]
        simp only [List.length_cons] at hl ⊢
        omega
      simp only [chunksF, List.flatten_cons, ih _ hdrop, List.take_append_drop]

theorem chunksF_short : ∀ (f : Nat) (l : List Char), l.length ≤ f →
    ∀ seg ∈ chunksF f l, seg.length ≤ 255 := by
  intro f
  induction f with
  | zero =>
    intro l hl seg hseg
    have : l = [] := List.length_eq_zero.mp (Nat.le_zero.mp hl)
    subst this
    simp [chunksF] at hseg
  | succ f ih =>
    intro l hl seg hseg
    cases l with
    | nil => simp [chunksF] at hseg
    | cons c cs =>
      simp only [chunksF, List.mem_cons] at hseg
      rcases hseg with h | h
      · subst h
        simp only [List.length_take]
        exact min_le_left _ _
      · have hdrop : ((c :: cs).drop 255).length ≤ f := by
          rw [List.length_drop]
          simp only [List.length_cons] at hl ⊢
          omega
        exact ih _ hdrop seg h

theorem split_txt_nil : split_txt [] = [[]] := rfl

theorem split_txt_of_ne_nil (txt : List Char) (h : txt ≠ []) :
    split_txt txt = chunksF txt.length txt := by
  cases txt with
  | nil => exact absurd rfl h
  | cons c cs =>
    have : chunksF (c :: cs).length (c :: cs) =
        (c :: cs).take 255 :: chunksF cs.length ((c :: cs).drop 255) := rfl
    rw [split_txt, this]

/-- C2: concatenating the segments of `split_txt txt` reproduces `txt`;
the result is never the empty sequence; empty input yields exactly one
empty segment. -/
theorem split_txt_join_and_nil (txt : List Char) :
    (split_txt txt).flatten = txt ∧ split_txt txt ≠ [] ∧ split_txt [] = [[]] := by
  refine ⟨?_, ?_, rfl⟩
  · by_cases h : txt = []
    · subst h; rfl
    · rw [split_txt_of_ne_nil txt h]
      exact chunksF_join txt.length txt le_rfl
  · by_cases h : txt = []
    · subst h; simp [split_txt_nil]
    · rw [split_txt_of_ne_nil txt h]
      cases txt with
      | nil => exact absurd rfl h
      | cons c cs => simp [chunksF]

/-- Every segment produced by `split_txt` has at most 255 characters
(code points) — this is what the character-based slicing guarantees. -/
theorem split_txt_seg_le_255_chars (txt : List Char) :
    ∀ seg ∈ split_txt txt, seg.length ≤ 255 := by
  intro seg hseg
  by_cases h : txt = []
  · subst h
    simp [split_txt_nil] at hseg
    simp [hseg]
  · rw [split_txt_of_ne_nil txt h] at hseg
    exact chunksF_short txt.length txt le_rfl seg hseg

/-- A 255-character input consisting of 2-byte code points. -/
def c3Input : List Char := List.replicate 255 'é'

set_option maxRecDepth 10000 in
/-- C3 (refuted on the code): on a 255-character string of `'é'` (each 2
UTF-8 bytes), `split_txt` returns a single 255-character segment whose
encoded form is 510 bytes, exceeding the 255-byte limit its own docstring
("Split into ≤255-byte chunks for TXT RDATA") promises. -/
theorem split_txt_byte_overflow :
    split_txt c3Input = [c3Input] ∧ utf8Len c3Input = 510 ∧
      ∃ seg ∈ split_txt c3Input, 255 < utf8Len seg := by
  refine ⟨by decide, by decide, c3Input, ?_, by decide⟩
  decide

/-! ## Prompt derivation: `dns_unescape` and `dns_safe_prompt` -/

/-- Python `label.rstrip(".")`: remove every trailing `'.'`. -/
def rstripDots (l : List Char) : List Char :=
  (l.reverse.dropWhile (fun c => c = '.')).reverse

/-- Python `str.removesuffix`: drop `suf` from the end when it is a suffix,
otherwise return the string unchanged. -/
def removeSuffix (l suf : List Char) : List Char :=
  if suf.isSuffixOf l then l.take (l.length - suf.length) else l

/-- `dns_unescape` from the source: substitute each match of the regex
`\\(\d{3})` by `chr(int(m.group(1)))` — a backslash followed by exactly three
digits becomes the character with that *decimal* code, scanning left to right
without overlap, exactly like `re.sub`. -/
def dns_unescape : List Char → List Char
  | '\\' :: d1 :: d2 :: d3 :: rest =>
    if d1.isDigit ∧ d2.isDigit ∧ d3.isDigit then
      Char.ofNat ((d1.toNat - '0'.toNat) * 100 + (d2.toNat - '0'.toNat) * 10 +
        (d3.toNat - '0'.toNat)) :: dns_unescape rest
    else '\\' :: dns_unescape (d1 :: d2 :: d3 :: rest)
  | c :: rest => c :: dns_unescape rest
  | [] => []

/-- `dns_safe_prompt` from the source:
`name = raw_name.rstrip(".").removesuffix(DOMAIN)`, then
`prompt = dns_unescape(name)`, wrapped in the instruction f-string. -/
def dns_safe_prompt (raw_name : List Char) : List Char :=
  ("Answer in " ++ toString MAX_CHARS ++
      " characters or less, no markdown formatting: ").toList ++
    dns_unescape (removeSuffix (rstripDots raw_name) DOMAIN)

/-- C10: on the subject name `"hello\032world.mashb1t.de."` the derived
prompt strips the trailing dot and the serving-domain, un-escapes `\032`
(decimal 32 = space) and embeds the cleaned text `"hello world"` in the
instruction wrapper mentioning the 500-character budget. -/
theorem dns_safe_prompt_hello_world :
    dns_safe_prompt "hello\\032world.mashb1t.de.".toList =
      ("Answer in 500 characters or less, no markdown formatting: " ++
        "hello world").toList := by
  decide

/-! ## RateLimiter: `rate_limit_allow` and the `_BUCKETS` dict -/

/-- A token-bucket entry `(tokens, last_ts)` as stored in `_BUCKETS`. -/
abbrev Bucket : Type := ℚ × ℚ

/-- The `_BUCKETS` dict, `ip -> (tokens, last_ts)`, as an association list
whose leftmost binding for a key is the current one. -/
abbrev Buckets : Type := List (String × Bucket)

/-- Dict lookup `_BUCKETS.get(ip, default)` without the default: first
binding for `ip`, if any. -/
def findBucket (ip : String) : Buckets → Option Bucket
  | [] => none
  | (k, v) :: b => if k = ip then some v else findBucket ip b

/-- `rate_limit_allow` from the source, as a state transformer on the
buckets map; `now` is the value `time.time()` returned for this call.
`_BUCKETS.get(ip, (TOKENS_PER_MIN, now))`, refill
`min(TOKENS_PER_MIN, tokens + (now - ts) * (TOKENS_PER_MIN / 60))`, then
deny (persisting the refreshed tokens) when `tokens < 1`, else spend one. -/
def rate_limit_allow (ip : String) (now : ℚ) (b : Buckets) : Bool × Buckets :=
  let s := (findBucket ip b).getD (TOKENS_PER_MIN, now)
  let tokens := min TOKENS_PER_MIN (s.1 + (now - s.2) * (TOKENS_PER_MIN / 60))
  if tokens < 1 then (false, (ip, (tokens, now)) :: b)
  else (true, (ip, (tokens - 1, now)) :: b)

/-- Run a sequence of `(ip, now)` calls through `rate_limit_allow`,
collecting the returned booleans and the final buckets map. -/
def runAllow : Buckets → List (String × ℚ) → List Bool × Buckets
  | b, [] => ([], b)
  | b, (ip, t) :: cs =>
    let r := rate_limit_allow ip t b
    let rest := runAllow r.2 cs
    (r.1 :: rest.1, rest.2)

/-- The bucket-map invariant at clock value `t`: every stored entry has
tokens in `[0, TOKENS_PER_MIN]` and a refill timestamp `≤ t`. -/
def WFB (b : Buckets) (t : ℚ) : Prop :=
  ∀ e ∈ b, 0 ≤ e.2.1 ∧ e.2.1 ≤ TOKENS_PER_MIN ∧ e.2.2 ≤ t

theorem findBucket_mem {ip : String} :
    ∀ {b : Buckets} {v : Bucket}, findBucket ip b = some v → (ip, v) ∈ b := by
  intro b
  induction b with
  | nil => intro v h; simp [findBucket] at h
  | cons e b ih =>
    intro v h
    obtain ⟨k, w⟩ := e
    by_cases hk : k = ip
    · subst hk
      simp [findBucket] at h
      subst h
      exact List.mem_cons_self _ _
    · simp [findBucket, hk] at h
      exact List.mem_cons_of_mem _ (ih h)

theorem step_WFB {b : Buckets} {t now : ℚ} (h : WFB b t) (hle : t ≤ now)
    (ip : String) : WFB (rate_limit_allow ip now b).2 now := by
  have hbase : ∀ s : Bucket, s = (findBucket ip b).getD (TOKENS_PER_MIN, now) →
      0 ≤ s.1 ∧ s.1 ≤ TOKENS_PER_MIN ∧ s.2 ≤ now := by
    intro s hs
    cases hfb : findBucket ip b with
    | none =>
      rw [hfb] at hs
      simp [TOKENS_PER_MIN] at hs ⊢
      subst hs
      norm_num
    | some v =>
      rw [hfb] at hs
      simp at hs
      subst hs
      obtain ⟨h1, h2, h3⟩ := h _ (findBucket_mem hfb)
      exact ⟨h1, h2, le_trans h3 hle⟩
  obtain ⟨hs0, hs1, hs2⟩ := hbase _ rfl
  set s := (findBucket ip b).getD (TOKENS_PER_MIN, now) with hsdef
  have htok0 : 0 ≤ min TOKENS_PER_MIN (s.1 + (now - s.2) * (TOKENS_PER_MIN / 60)) := by
    apply le_min
    · norm_num [TOKENS_PER_MIN]
    · have : 0 ≤ (now - s.2) * (TOKENS_PER_MIN / 60) := by
        apply mul_nonneg
        · linarith
        · norm_num [TOKENS_PER_MIN]
      linarith
  have htok1 : min TOKENS_PER_MIN (s.1 + (now - s.2) * (TOKENS_PER_MIN / 60)) ≤
      TOKENS_PER_MIN := min_le_left _ _
  have htail : ∀ e ∈ b, 0 ≤ e.2.1 ∧ e.2.1 ≤ TOKENS_PER_MIN ∧ e.2.2 ≤ now :=
    fun e he => ⟨(h e he).1, (h e he).2.1, le_trans (h e he).2.2 hle⟩
  rw [rate_limit_allow]
  split
  · intro e he
    rcases List.mem_cons.mp he with he | he
    · subst he
      exact ⟨htok0, htok1, le_refl now⟩
    · exact htail e he
  · intro e he
    rcases List.mem_cons.mp he with he | he
    · subst he
      refine ⟨?_, ?_, le_refl now⟩
      · have h1 : ¬ (min TOKENS_PER_MIN (s.1 + (now - s.2) * (TOKENS_PER_MIN / 60)) < 1) :=
          by assumption
        push_neg at h1
        simp only
        linarith
      · simp only
        have : (0:ℚ) ≤ TOKENS_PER_MIN := by norm_num [TOKENS_PER_MIN]
        linarith
    · exact htail e he

theorem runAllow_WFB : ∀ (cs : List (String × ℚ)) (b : Buckets) (t : ℚ),
    WFB b t → List.Chain (· ≤ ·) t (cs.map Prod.snd) →
    ∀ e ∈ (runAllow b cs).2, 0 ≤ e.2.1 ∧ e.2.1 ≤ TOKENS_PER_MIN := by
  intro cs
  induction cs with
  | nil =>
    intro b t h _ e he
    exact ⟨(h e he).1, (h e he).2.1⟩
  | cons c cs ih =>
    intro b t h hchain e he
    obtain ⟨ip, tm⟩ := c
    simp only [List.map_cons, List.chain_cons] at hchain
    obtain ⟨htm, hchain'⟩ := hchain
    exact ih _ tm (step_WFB h htm ip) hchain' e he

/-- C4: starting from the empty `_BUCKETS` map, after any number of calls
with non-decreasing clock readings (any keys), every key's current bucket
holds a tokens value in `[0, TOKENS_PER_MIN]`: never negative, never above
capacity. -/
theorem rate_limit_tokens_in_range (calls : List (String × ℚ))
    (hmono : List.Chain' (· ≤ ·) (calls.map Prod.snd)) (n : Nat)
    (ip : String) (tok ts : ℚ)
    (hb : findBucket ip (runAllow [] (calls.take n)).2 = some (tok, ts)) :
    0 ≤ tok ∧ tok ≤ TOKENS_PER_MIN := by
  have hmono' : List.Chain' (· ≤ ·) ((calls.take n).map Prod.snd) := by
    rw [List.map_take]
    exact List.Chain'.take hmono n
  cases hcs : calls.take n with
  | nil =>
    rw [hcs] at hb
    simp [runAllow, findBucket] at hb
  | cons c cs =>
    obtain ⟨ip0, t0⟩ := c
    rw [hcs] at hb hmono'
    simp only [List.map_cons] at hmono'
    have hchain : List.Chain (· ≤ ·) t0 (((ip0, t0) :: cs).map Prod.snd) := by
      simp only [List.map_cons]
      exact List.Chain.cons (le_refl t0) hmono'
    have := runAllow_WFB ((ip0, t0) :: cs) [] t0 (by intro e he; simp at he)
      hchain _ (findBucket_mem hb)
    exact this

/-- Witness for C4 at a concrete run: one call at time 0 leaves key "a"
with 59 tokens, inside `[0, TOKENS_PER_MIN]`. -/
theorem rate_limit_tokens_in_range_witness :
    (0:ℚ) ≤ 59 ∧ (59:ℚ) ≤ TOKENS_PER_MIN :=
  rate_limit_tokens_in_range [("a", (0:ℚ))] (by simp) 1 "a" 59 0
    (by norm_num [runAllow, rate_limit_allow, findBucket, TOKENS_PER_MIN])

/-! ## C7: a 61-call burst from a fresh key -/

/-- One `rate_limit_allow` call specialised to the single bucket it touches:
the same refill/spend arithmetic on a `(tokens, last_ts)` pair. -/
def allowStep (st : Bucket) (now : ℚ) : Bool × Bucket :=
  let tokens := min TOKENS_PER_MIN (st.1 + (now - st.2) * (TOKENS_PER_MIN / 60))
  if tokens < 1 then (false, (tokens, now)) else (true, (tokens - 1, now))

/-- Run `allowStep` over a list of clock readings. -/
def runSteps : Bucket → List ℚ → List Bool × Bucket
  | st, [] => ([], st)
  | st, t :: ts =>
    let r := allowStep st t
    let rest := runSteps r.2 ts
    (r.1 :: rest.1, rest.2)

theorem rate_limit_allow_found {ip : String} {b : Buckets} {st : Bucket}
    (h : findBucket ip b = some st) (now : ℚ) :
    rate_limit_allow ip now b =
      ((allowStep st now).1, (ip, (allowStep st now).2) :: b) := by
  rw [rate_limit_allow, allowStep, h]
  simp only [Option.getD_some]
  split <;> rfl

theorem rate_limit_allow_fresh {ip : String} {b : Buckets}
    (h : findBucket ip b = none) (now : ℚ) :
    rate_limit_allow ip now b =
      ((allowStep (TOKENS_PER_MIN, now) now).1,
        (ip, (allowStep (TOKENS_PER_MIN, now) now).2) :: b) := by
  rw [rate_limit_allow, allowStep, h]
  simp only [Option.getD_none]
  split <;> rfl

theorem runAllow_same_key (ip : String) : ∀ (ts : List ℚ) (st : Bucket)
    (b : Buckets), findBucket ip b = some st →
    (runAllow b (ts.map (fun t => (ip, t)))).1 = (runSteps st ts).1 := by
  intro ts
  induction ts with
  | nil => intro st b _; rfl
  | cons t ts ih =>
    intro st b hfb
    simp only [List.map_cons, runAllow, runSteps,
      rate_limit_allow_found hfb t]
    have hfb' : findBucket ip ((ip, (allowStep st t).2) :: b) =
        some (allowStep st t).2 := by simp [findBucket]
    rw [ih _ _ hfb']

theorem runAllow_fresh_key (ip : String) (b : Buckets)
    (hfb : findBucket ip b = none) (t : ℚ) (ts : List ℚ) :
    (runAllow b ((t :: ts).map (fun u => (ip, u)))).1 =
      (runSteps (TOKENS_PER_MIN, t) (t :: ts)).1 := by
  simp only [List.map_cons, runAllow, runSteps, rate_limit_allow_fresh hfb t]
  have hfb' : findBucket ip ((ip, (allowStep (TOKENS_PER_MIN, t) t).2) :: b) =
      some (allowStep (TOKENS_PER_MIN, t) t).2 := by simp [findBucket]
  rw [runAllow_same_key ip ts _ _ hfb']

theorem runSteps_append : ∀ (l1 l2 : List ℚ) (st : Bucket),
    runSteps st (l1 ++ l2) =
      ((runSteps st l1).1 ++ (runSteps (runSteps st l1).2 l2).1,
        (runSteps (runSteps st l1).2 l2).2) := by
  intro l1
  induction l1 with
  | nil => intro l2 st; rfl
  | cons t l1 ih =>
    intro l2 st
    simp only [List.cons_append, runSteps, List.append_eq, ih]

/-- During a burst: while at least `ts.length` tokens remain (and the clock
is non-decreasing), every call is allowed, the final tokens are bounded by
`tok - ts.length + elapsed`, and the final timestamp is the last reading. -/
theorem runSteps_burst : ∀ (ts : List ℚ) (tok t0 : ℚ),
    List.Chain (· ≤ ·) t0 ts → (ts.length : ℚ) ≤ tok → tok ≤ TOKENS_PER_MIN →
    (runSteps (tok, t0) ts).1 = List.replicate ts.length true ∧
      (runSteps (tok, t0) ts).2.1 ≤ tok - ts.length + (ts.getLastD t0 - t0) ∧
      (runSteps (tok, t0) ts).2.2 = ts.getLastD t0 := by
  intro ts
  induction ts with
  | nil =>
    intro tok t0 _ _ _
    refine ⟨rfl, ?_, rfl⟩
    simp [runSteps]
  | cons t ts ih =>
    intro tok t0 hchain hlen hcap
    rw [List.chain_cons] at hchain
    obtain ⟨ht0, hchain'⟩ := hchain
    have hlen' : ((ts.length : ℚ)) + 1 ≤ tok := by
      simp only [List.length_cons] at hlen
      push_cast at hlen
      linarith
    have hrate : TOKENS_PER_MIN / 60 = 1 := by norm_num [TOKENS_PER_MIN]
    have htokge : tok ≤ min TOKENS_PER_MIN (tok + (t - t0) * (TOKENS_PER_MIN / 60)) := by
      apply le_min hcap
      rw [hrate]
      linarith
    have htokle : min TOKENS_PER_MIN (tok + (t - t0) * (TOKENS_PER_MIN / 60)) ≤
        tok + (t - t0) := by
      rw [hrate] at *
      calc min TOKENS_PER_MIN (tok + (t - t0) * 1) ≤ tok + (t - t0) * 1 :=
            min_le_right _ _
        _ = tok + (t - t0) := by ring
    set tk := min TOKENS_PER_MIN (tok + (t - t0) * (TOKENS_PER_MIN / 60)) with htk
    have hnotlt : ¬ tk < 1 := by
      push_neg
      have h0 : (0:ℚ) ≤ (ts.length : ℚ) := Nat.cast_nonneg _
      linarith
    have hstep : allowStep (tok, t0) t = (true, (tk - 1, t)) := by
      rw [allowStep]
      simp only [← htk, if_neg hnotlt]
    have hcap' : tk - 1 ≤ TOKENS_PER_MIN := by
      have : tk ≤ TOKENS_PER_MIN := min_le_left _ _
      linarith
    have hlen'' : (ts.length : ℚ) ≤ tk - 1 := by linarith
    obtain ⟨ih1, ih2, ih3⟩ := ih (tk - 1) t hchain' hlen'' hcap'
    refine ⟨?_, ?_, ?_⟩
    · simp only [runSteps, hstep, ih1, List.length_cons, List.replicate_succ]
    · simp only [runSteps, hstep, List.getLastD_cons, List.length_cons]
      push_cast
      have := ih2
      push_cast at this
      linarith
    · simp only [runSteps, hstep, List.getLastD_cons, ih3]

/-- C7: with capacity `TOKENS_PER_MIN = 60`, a previously-unseen key making
61 calls whose clock readings are non-decreasing and all within less than
one second of the first gets `true` on the first 60 calls and `false` on
the 61st. -/
theorem rate_limit_61st_denied (ip : String) (b : Buckets)
    (hfb : findBucket ip b = none) (t0 : ℚ) (ts : List ℚ)
    (hlen : ts.length = 60) (hchain : List.Chain (· ≤ ·) t0 ts)
    (hwin : ∀ t ∈ ts, t < t0 + 1) :
    (runAllow b ((t0 :: ts).map (fun t => (ip, t)))).1 =
      List.replicate 60 true ++ [false] := by
  rw [runAllow_fresh_key ip b hfb t0 ts]
  have hne : ts ≠ [] := by
    intro h
    rw [h] at hlen
    simp at hlen
  have hsplit : t0 :: ts = (t0 :: ts.dropLast) ++ [ts.getLast hne] := by
    simp [List.dropLast_append_getLast hne]
  rw [hsplit, runSteps_append]
  have hchainfront : List.Chain (· ≤ ·) t0 ts.dropLast := by
    have h1 : List.Chain' (· ≤ ·) (t0 :: ts) := hchain
    have h2 : List.Sublist (t0 :: ts.dropLast) (t0 :: ts) :=
      List.Sublist.cons₂ t0 (List.dropLast_sublist ts)
    exact h1.sublist h2
  have hlenfront : ts.dropLast.length = 59 := by
    rw [List.length_dropLast, hlen]
  have hchain2 : List.Chain (· ≤ ·) t0 (t0 :: ts.dropLast) :=
    List.Chain.cons (le_refl t0) hchainfront
  have hlen2 : (((t0 :: ts.dropLast).length : ℚ)) ≤ TOKENS_PER_MIN := by
    simp only [List.length_cons, hlenfront]
    norm_num [TOKENS_PER_MIN]
  obtain ⟨h1, h2, h3⟩ := runSteps_burst (t0 :: ts.dropLast) TOKENS_PER_MIN t0
    hchain2 hlen2 (le_refl _)
  have hlenlist : (t0 :: ts.dropLast).length = 60 := by
    simp [hlenfront]
  dsimp only
  rw [h1, hlenlist]
  congr 1
  set st := (runSteps (TOKENS_PER_MIN, t0) (t0 :: ts.dropLast)).2 with hst
  have hlen60 : ((t0 :: ts.dropLast).length : ℚ) = 60 := by
    rw [hlenlist]
    norm_num
  rw [hlen60] at h2
  have htlwin : ts.getLast hne < t0 + 1 := hwin _ (List.getLast_mem hne)
  have hTP : TOKENS_PER_MIN = 60 := by norm_num [TOKENS_PER_MIN]
  have hrate : TOKENS_PER_MIN / 60 = 1 := by norm_num [TOKENS_PER_MIN]
  have hlt1 : min TOKENS_PER_MIN
      (st.1 + (ts.getLast hne - st.2) * (TOKENS_PER_MIN / 60)) < 1 := by
    rw [hrate, h3]
    have hmin := min_le_right TOKENS_PER_MIN
      (st.1 + (ts.getLast hne - (t0 :: ts.dropLast).getLastD t0) * 1)
    linarith
  have hfst : (allowStep st (ts.getLast hne)).1 = false := by
    dsimp only [allowStep]
    rw [if_pos hlt1]
  dsimp only [runSteps]
  rw [hfst]

/-- Witness for C7: a fresh key issuing 61 calls all at clock reading 0
gets 60 grants and then a denial. -/
theorem rate_limit_61st_denied_witness :
    (runAllow [] (((0:ℚ) :: List.replicate 60 (0:ℚ)).map
        (fun t => ("1.2.3.4", t)))).1 = List.replicate 60 true ++ [false] :=
  rate_limit_61st_denied "1.2.3.4" [] rfl 0 (List.replicate 60 0)
    (by simp) (List.chain_replicate_of_rel 60 (le_refl 0))
    (fun t ht => by rw [List.eq_of_mem_replicate ht]; norm_num)

/-! ## DeadlineAggregator: the per-question loop of `DNSHandler.handle` -/

/-- One observation the `while` loop makes of `q_out`:
* `item s` — `q_out.get` returned the fragment `s` before the deadline;
* `endMark` — `q_out.get` returned the `None` sentinel before the deadline;
* `timeout` — the deadline passed (the `time.time() < deadline` guard
  failed, or `q_out.get` raised `queue.Empty`). -/
inductive QueueEvent where
  | item : List Char → QueueEvent
  | endMark : QueueEvent
  | timeout : QueueEvent
deriving DecidableEq

/-- The `Answer` of the spec's data model: the code keeps it as the pair of
the string `final` and the flag `done` (the spec's `complete`). -/
structure Answer where
  content : List Char
  complete : Bool
deriving DecidableEq

/-- The accumulation `while` loop:
`while time.time() < deadline and len("".join(response_chunks)) < MAX_CHARS`
with body `item = q_out.get(...)`; `None` sets `done = True` and breaks;
a fragment is appended. Returns the pair (accumulated text, `done`).
`maxChars` is the `MAX_CHARS` bound the loop is run with. -/
def aggLoop (maxChars : Nat) : List QueueEvent → List Char → List Char × Bool
  | events, acc =>
    if acc.length < maxChars then
      match events with
      | [] => (acc, false)
      | QueueEvent.timeout :: _ => (acc, false)
      | QueueEvent.endMark :: _ => (acc, true)
      | QueueEvent.item s :: rest => aggLoop maxChars rest (acc ++ s)
    else (acc, false)

/-- The marker substitution
`if len(final) == MAX_CHARS and not done: final = final[:-3] + "..."`
(`final[:-3]` is "all but the last 3 characters", i.e. `take (len - 3)`). -/
def truncMark (maxChars : Nat) (final : List Char) (done : Bool) : List Char :=
  if final.length = maxChars ∧ done = false then
    final.take (final.length - 3) ++ "...".toList
  else final

/-- The empty-answer fallback `if not final: final = "Request timed out"`. -/
def orTimeout (l : List Char) : List Char :=
  if l = [] then "Request timed out".toList else l

/-- Finalization after the loop:
`final = "".join(response_chunks)[:MAX_CHARS]`, then the marker
substitution, then the empty-answer fallback; `complete` is the spec's name
for the loop's `done` flag. -/
def finalizeAnswer (maxChars : Nat) (acc : List Char) (done : Bool) : Answer :=
  ⟨orTimeout (truncMark maxChars (acc.take maxChars) done), done⟩

/-- The whole per-question aggregation: run the loop on the observed queue
events starting from no accumulated chunks, then finalize. -/
def aggregate (maxChars : Nat) (events : List QueueEvent) : Answer :=
  let r := aggLoop maxChars events []
  finalizeAnswer maxChars r.1 r.2

theorem aggLoop_nil (maxChars : Nat) (acc : List Char) :
    aggLoop maxChars [] acc = (acc, false) := by
  show (if acc.length < maxChars then ((acc, false) : List Char × Bool)
    else (acc, false)) = (acc, false)
  split <;> rfl

theorem aggLoop_timeout (maxChars : Nat) (acc : List Char)
    (rest : List QueueEvent) :
    aggLoop maxChars (QueueEvent.timeout :: rest) acc = (acc, false) := by
  show (if acc.length < maxChars then ((acc, false) : List Char × Bool)
    else (acc, false)) = (acc, false)
  split <;> rfl

theorem aggLoop_endMark (maxChars : Nat) (acc : List Char)
    (rest : List QueueEvent) (h : acc.length < maxChars) :
    aggLoop maxChars (QueueEvent.endMark :: rest) acc = (acc, true) := by
  show (if acc.length < maxChars then ((acc, true) : List Char × Bool)
    else (acc, false)) = (acc, true)
  rw [if_pos h]

theorem aggLoop_item (maxChars : Nat) (acc s : List Char)
    (rest : List QueueEvent) (h : acc.length < maxChars) :
    aggLoop maxChars (QueueEvent.item s :: rest) acc =
      aggLoop maxChars rest (acc ++ s) := by
  show (if acc.length < maxChars then aggLoop maxChars rest (acc ++ s)
    else (acc, false)) = aggLoop maxChars rest (acc ++ s)
  rw [if_pos h]

theorem aggLoop_ge (maxChars : Nat) (acc : List Char)
    (events : List QueueEvent) (h : ¬ acc.length < maxChars) :
    aggLoop maxChars events acc = (acc, false) := by
  cases events with
  | nil => exact aggLoop_nil maxChars acc
  | cons e rest =>
    cases e with
    | item s =>
      show (if acc.length < maxChars then aggLoop maxChars rest (acc ++ s)
        else (acc, false)) = (acc, false)
      rw [if_neg h]
    | endMark =>
      show (if acc.length < maxChars then ((acc, true) : List Char × Bool)
        else (acc, false)) = (acc, false)
      rw [if_neg h]
    | timeout => exact aggLoop_timeout maxChars acc rest

/-- The loop reports `done = true` only when it consumed the end marker
while strictly below the length cap, so the accumulated text is then
strictly shorter than `maxChars`. -/
theorem aggLoop_done_lt : ∀ (events : List QueueEvent) (acc : List Char)
    (maxChars : Nat), (aggLoop maxChars events acc).2 = true →
    (aggLoop maxChars events acc).1.length < maxChars := by
  intro events
  induction events with
  | nil =>
    intro acc maxChars h
    rw [aggLoop_nil] at h
    simp at h
  | cons e rest ih =>
    intro acc maxChars h
    by_cases hlt : acc.length < maxChars
    · match e with
      | QueueEvent.timeout =>
        rw [aggLoop_timeout] at h
        simp at h
      | QueueEvent.endMark =>
        rw [aggLoop_endMark _ _ _ hlt]
        exact hlt
      | QueueEvent.item s =>
        rw [aggLoop_item _ _ _ _ hlt] at h ⊢
        exact ih _ _ h
    · rw [aggLoop_ge _ _ _ hlt] at h
      simp at h

/-- If the loop ends with the cap reached, `done` is `false`. -/
theorem aggLoop_cap_not_done (events : List QueueEvent) (maxChars : Nat)
    (h : maxChars ≤ (aggLoop maxChars events []).1.length) :
    (aggLoop maxChars events []).2 = false := by
  cases hdone : (aggLoop maxChars events []).2 with
  | false => rfl
  | true =>
    have := aggLoop_done_lt events [] maxChars hdone
    omega

theorem aggLoop_items_end : ∀ (frags : List (List Char)) (acc : List Char)
    (maxChars : Nat), (acc ++ frags.flatten).length < maxChars →
    aggLoop maxChars (frags.map QueueEvent.item ++ [QueueEvent.endMark]) acc =
      (acc ++ frags.flatten, true) := by
  intro frags
  induction frags with
  | nil =>
    intro acc maxChars h
    simp only [List.flatten_nil, List.append_nil] at h ⊢
    exact aggLoop_endMark maxChars acc [] h
  | cons f fs ih =>
    intro acc maxChars h
    simp only [List.flatten_cons] at h
    have hacc : acc.length < maxChars := by
      have := List.length_append acc (f ++ fs.flatten)
      omega
    simp only [List.map_cons, List.cons_append]
    rw [aggLoop_item maxChars acc f _ hacc]
    have h' : ((acc ++ f) ++ fs.flatten).length < maxChars := by
      rw [List.append_assoc]
      simpa using h
    rw [ih (acc ++ f) maxChars h']
    simp [List.append_assoc]

theorem aggregate_eq (maxChars : Nat) (events : List QueueEvent) :
    aggregate maxChars events =
      finalizeAnswer maxChars (aggLoop maxChars events []).1
        (aggLoop maxChars events []).2 := rfl

theorem truncMark_pos (maxChars : Nat) (final : List Char)
    (h : final.length = maxChars) :
    truncMark maxChars final false =
      final.take (maxChars - 3) ++ "...".toList := by
  rw [truncMark, if_pos ⟨h, rfl⟩, h]

theorem truncMark_done (maxChars : Nat) (final : List Char) :
    truncMark maxChars final true = final := by
  rw [truncMark]
  apply if_neg
  rintro ⟨-, h2⟩
  cases h2

theorem truncMark_short (maxChars : Nat) (final : List Char) (done : Bool)
    (h : final.length ≠ maxChars) : truncMark maxChars final done = final := by
  rw [truncMark]
  apply if_neg
  rintro ⟨h1, -⟩
  exact h h1

theorem orTimeout_ne (l : List Char) (h : l ≠ []) : orTimeout l = l :=
  if_neg h

theorem marker_append_ne_nil (l : List Char) : l ++ "...".toList ≠ [] := by
  intro hnil
  simp at hnil

/-- C5 (amended: at least one character must have accumulated): if the
source delivers fragments with `0 < total length < maxChars` and then the
end-of-stream marker, all before the deadline, the answer is the untruncated
in-order concatenation with `complete = true`. -/
theorem aggregate_complete_untruncated (frags : List (List Char))
    (maxChars : Nat) (hlen : frags.flatten.length < maxChars)
    (hne : frags.flatten ≠ []) :
    aggregate maxChars (frags.map QueueEvent.item ++ [QueueEvent.endMark]) =
      ⟨frags.flatten, true⟩ := by
  have h := aggLoop_items_end frags [] maxChars (by simpa using hlen)
  simp only [List.nil_append] at h
  rw [aggregate_eq, h]
  simp only [finalizeAnswer]
  have htake : frags.flatten.take maxChars = frags.flatten :=
    List.take_of_length_le (le_of_lt hlen)
  rw [htake, truncMark_done, orTimeout_ne _ hne]

/-- Counterexample to C5 as stated: a stream that signals `CompletedNormally`
having emitted nothing (zero fragments, total length `0 < maxChars`) yields
the timeout sentinel as content, not the empty concatenation. -/
theorem aggregate_empty_completion_not_concat :
    (aggregate 500 [QueueEvent.endMark]).complete = true ∧
      (aggregate 500 [QueueEvent.endMark]).content =
        "Request timed out".toList ∧
      (aggregate 500 [QueueEvent.endMark]).content ≠
        ([] : List (List Char)).flatten := by
  refine ⟨rfl, rfl, ?_⟩
  decide

/-- Witness for C5 (amended) at a concrete stream. -/
theorem aggregate_complete_untruncated_witness :
    aggregate 500 ((["Hello ".toList, "world".toList]).map QueueEvent.item ++
        [QueueEvent.endMark]) =
      ⟨(["Hello ".toList, "world".toList]).flatten, true⟩ :=
  aggregate_complete_untruncated ["Hello ".toList, "world".toList] 500
    (by decide) (by decide)

/-- C1 (amended): when the loop stops without having seen the end marker,
the final 3 characters are replaced by the marker `"..."` if the text
truncated to `maxChars` has length exactly `maxChars` (that is, if it was
actually cut at the cap) — not already when it is merely non-empty; and
after a clean completion the content is the accumulated text unmodified (or
the timeout sentinel when it is empty), never marker-substituted. -/
theorem aggregate_marker_iff_cut (maxChars : Nat) (events : List QueueEvent) :
    ((aggLoop maxChars events []).2 = false →
      ((aggLoop maxChars events []).1.take maxChars).length = maxChars →
      (aggregate maxChars events).content =
        ((aggLoop maxChars events []).1.take maxChars).take (maxChars - 3) ++
          "...".toList) ∧
    ((aggLoop maxChars events []).2 = true →
      (aggregate maxChars events).content =
        if (aggLoop maxChars events []).1 = [] then "Request timed out".toList
        else (aggLoop maxChars events []).1) := by
  constructor
  · intro hdone hlen
    rw [aggregate_eq, hdone]
    simp only [finalizeAnswer]
    rw [truncMark_pos maxChars _ hlen,
      orTimeout_ne _ (marker_append_ne_nil _)]
  · intro hdone
    have hlt := aggLoop_done_lt events [] maxChars hdone
    rw [aggregate_eq, hdone]
    simp only [finalizeAnswer]
    rw [List.take_of_length_le (le_of_lt hlt), truncMark_done]
    simp only [orTimeout]

/-- Counterexample to C1 as stated: the loop stops because the deadline
passes after one 2-character fragment and no end marker; the truncated text
"hi" is non-empty, yet the returned content is "hi" unchanged — its final 3
characters are not replaced by "...". -/
theorem aggregate_deadline_no_marker :
    aggLoop 500 [QueueEvent.item "hi".toList] [] = ("hi".toList, false) ∧
      (aggregate 500 [QueueEvent.item "hi".toList]).content = "hi".toList ∧
      "...".toList.isSuffixOf
        (aggregate 500 [QueueEvent.item "hi".toList]).content = false := by
  refine ⟨rfl, rfl, ?_⟩
  decide

/-- Witness for C1 (amended): one 501-character fragment, cap 500. -/
theorem aggregate_marker_iff_cut_witness :
    ((aggLoop 500 [QueueEvent.item (List.replicate 501 'a')] []).2 = false →
      ((aggLoop 500 [QueueEvent.item (List.replicate 501 'a')] []).1.take
          500).length = 500 →
      (aggregate 500 [QueueEvent.item (List.replicate 501 'a')]).content =
        ((aggLoop 500 [QueueEvent.item (List.replicate 501 'a')] []).1.take
          500).take (500 - 3) ++ "...".toList) ∧
    ((aggLoop 500 [QueueEvent.item (List.replicate 501 'a')] []).2 = true →
      (aggregate 500 [QueueEvent.item (List.replicate 501 'a')]).content =
        if (aggLoop 500 [QueueEvent.item (List.replicate 501 'a')] []).1 = []
        then "Request timed out".toList
        else (aggLoop 500 [QueueEvent.item (List.replicate 501 'a')] []).1) :=
  aggregate_marker_iff_cut 500 [QueueEvent.item (List.replicate 501 'a')]

/-- C6: if the accumulated text reaches at least `maxChars` before the end
marker is observed, the returned content has length exactly `maxChars`, the
answer is incomplete, and the content ends with the continuation marker. -/
theorem aggregate_cap_truncates (maxChars : Nat) (events : List QueueEvent)
    (h3 : 3 ≤ maxChars)
    (hcap : maxChars ≤ (aggLoop maxChars events []).1.length) :
    (aggregate maxChars events).content.length = maxChars ∧
      (aggregate maxChars events).complete = false ∧
      List.IsSuffix "...".toList (aggregate maxChars events).content := by
  have hdone := aggLoop_cap_not_done events maxChars hcap
  have hlen : ((aggLoop maxChars events []).1.take maxChars).length =
      maxChars := by
    rw [List.length_take]
    omega
  rw [aggregate_eq, hdone]
  simp only [finalizeAnswer]
  rw [truncMark_pos maxChars _ hlen, orTimeout_ne _ (marker_append_ne_nil _)]
  refine ⟨?_, ?_, ?_⟩
  · rw [List.length_append, List.length_take, hlen]
    have hdots : ("...".toList).length = 3 := rfl
    rw [hdots]
    omega
  · trivial
  · exact ⟨_, rfl⟩

/-- The 530 characters of the C6 scenario, delivered as two fragments with
no completion signal. -/
def c6Events : List QueueEvent :=
  [QueueEvent.item (List.replicate 300 'a'),
    QueueEvent.item (List.replicate 230 'b')]

set_option maxRecDepth 40000 in
/-- Witness for C6 at the spec's concrete scenario: fragments summing to
530 characters, cap 500, no completion signal. -/
theorem aggregate_cap_truncates_witness :
    (aggregate 500 c6Events).content.length = 500 ∧
      (aggregate 500 c6Events).complete = false ∧
      List.IsSuffix "...".toList (aggregate 500 c6Events).content :=
  aggregate_cap_truncates 500 c6Events (by decide) (by decide)

/-- C8: if the source delivers nothing before the deadline (every queue
observation is a timeout), the answer is the fixed timeout sentinel with
`complete = false`. -/
theorem aggregate_timeout_sentinel (maxChars : Nat) (events : List QueueEvent)
    (h0 : 0 < maxChars) (hto : ∀ e ∈ events, e = QueueEvent.timeout) :
    aggregate maxChars events = ⟨"Request timed out".toList, false⟩ := by
  have hloop : aggLoop maxChars events [] = ([], false) := by
    cases events with
    | nil => exact aggLoop_nil maxChars []
    | cons e rest =>
      have he := hto e (List.mem_cons_self e rest)
      rw [he]
      exact aggLoop_timeout maxChars [] rest
  have hagg : aggregate maxChars events = finalizeAnswer maxChars [] false := by
    rw [aggregate_eq, hloop]
  rw [hagg]
  simp only [finalizeAnswer]
  rw [List.take_nil]
  rw [truncMark_short maxChars [] false (by simpa using Nat.ne_of_lt h0)]
  rfl

/-- Witness for C8: a single timeout observation, cap 500. -/
theorem aggregate_timeout_sentinel_witness :
    aggregate 500 [QueueEvent.timeout] =
      ⟨"Request timed out".toList, false⟩ :=
  aggregate_timeout_sentinel 500 [QueueEvent.timeout] (by decide) (by decide)

/-! ## StreamSource: `llm_stream` -/

/-- One step of the backend interaction as `llm_stream` observes it:
* `msg c d` — a parsed line whose optional `message.content` field is `c`
  and whose `done` flag is `d`;
* `fault e` — an exception (connection error, `raise_for_status`, or a
  `json.loads` failure) raised at this point, described by `e`. -/
inductive StreamEvent where
  | msg : Option (List Char) → Bool → StreamEvent
  | fault : List Char → StreamEvent
deriving DecidableEq

/-- `llm_stream` from the source, as the sequence of values it puts on
`out_queue`: each non-empty `message.content` is forwarded; a truthy `done`
breaks; an exception enqueues `"[llm error] " + err` via the `except`
branch; the `finally` branch always enqueues the `None` sentinel last. -/
def llm_stream : List StreamEvent → List (Option (List Char))
  | [] => [none]
  | StreamEvent.fault e :: _ => [some ("[llm error] ".toList ++ e), none]
  | StreamEvent.msg c d :: rest =>
    (match c with
     | some s => if s = [] then [] else [some s]
     | none => []) ++
    (if d then [none] else llm_stream rest)

/-- The fragments the loop body forwards for a list of parsed lines. -/
def msgFrags (events : List StreamEvent) : List (Option (List Char)) :=
  events.filterMap fun e =>
    match e with
    | StreamEvent.msg (some s) _ => if s = [] then none else some (some s)
    | _ => none

/-- A parsed line that does not terminate the stream (`done` falsy). -/
def isPendingMsg : StreamEvent → Bool
  | StreamEvent.msg _ false => true
  | _ => false

/-- C9: whatever backend fault occurs mid-stream (after any number of
non-terminating lines), `llm_stream` returns normally: the queue receives
the fragments seen so far, then the error description as an ordinary
fragment, then the terminal `None` sentinel — the error text becomes
answer content instead of an exception. -/
theorem llm_stream_fault_enqueued (pre : List StreamEvent) (e : List Char)
    (rest : List StreamEvent) (hpre : ∀ ev ∈ pre, isPendingMsg ev = true) :
    llm_stream (pre ++ StreamEvent.fault e :: rest) =
      msgFrags pre ++ [some ("[llm error] ".toList ++ e), none] := by
  induction pre with
  | nil => rfl
  | cons ev pre ih =>
    have hev := hpre ev (List.mem_cons_self ev pre)
    have hpre' : ∀ x ∈ pre, isPendingMsg x = true :=
      fun x hx => hpre x (List.mem_cons_of_mem ev hx)
    rw [List.cons_append]
    match ev, hev with
    | StreamEvent.msg none false, _ =>
      have hstep : llm_stream (StreamEvent.msg none false ::
          (pre ++ StreamEvent.fault e :: rest)) =
          llm_stream (pre ++ StreamEvent.fault e :: rest) := rfl
      rw [hstep, ih hpre']
      rfl
    | StreamEvent.msg (some s) false, _ =>
      have hstep : llm_stream (StreamEvent.msg (some s) false ::
          (pre ++ StreamEvent.fault e :: rest)) =
          (if s = [] then [] else [some s]) ++
            llm_stream (pre ++ StreamEvent.fault e :: rest) := rfl
      rw [hstep, ih hpre']
      by_cases hs : s = []
      · subst hs
        rfl
      · rw [if_neg hs]
        have hmsg : msgFrags (StreamEvent.msg (some s) false :: pre) =
            some s :: msgFrags pre := by
          simp only [msgFrags, List.filterMap_cons]
          rw [if_neg hs]
        rw [hmsg]
        rfl
    | StreamEvent.msg c true, hev => exact Bool.noConfusion hev
    | StreamEvent.fault e', hev => exact Bool.noConfusion hev

/-- Witness for C9: one pending fragment, then a connection fault. -/
theorem llm_stream_fault_enqueued_witness :
    llm_stream ([StreamEvent.msg (some "Hi".toList) false] ++
        StreamEvent.fault "boom".toList :: []) =
      msgFrags [StreamEvent.msg (some "Hi".toList) false] ++
        [some ("[llm error] ".toList ++ "boom".toList), none] :=
  llm_stream_fault_enqueued [StreamEvent.msg (some "Hi".toList) false]
    "boom".toList [] (by decide)
